import Mathlib

set_option maxHeartbeats 1000000

/- Verification of the CodePack clone-and-archive tool (src/main.go).

   The development shallowly embeds the two engineering-significant parts of
   the program:

   * the archive writer `compress` (main.go, compress / compressToFile),
     modelled over an abstract filesystem tree `FSEntry`; and
   * the clone orchestration `cloneRepos` (worker pool, result collector,
     WaitGroup barrier, "done" sentinel), modelled as a labelled small-step
     transition system `Step` / `Exec` over state `St`.

   Machine integers (the atomic Int32 counters, the WaitGroup counter) are
   modelled as Nat: the counters count configured repositories, far below
   any wrap-around for representable configurations.  The unbuffered Go
   channels are modelled as rendezvous: one transition both sends and
   delivers a message. -/

/-- A clone request as built by cloneRepos from one configured repository:
the remote url and the destination path under the staging directory. -/
structure Req where
  url : String
  path : String
deriving DecidableEq

/-- The string a worker sends on resultChan before attempting a clone:
fmt.Sprintf("Cloning %s to path %s", req.url, req.path). -/
def startMsg (r : Req) : String :=
  "Cloning " ++ r.url ++ " to path " ++ r.path

/-- The string a worker sends on resultChan when bareMirrorClone fails:
fmt.Sprintf("Cloning %s to path %s failed: %v", req.url, req.path, err). -/
def failMsg (r : Req) (e : String) : String :=
  "Cloning " ++ r.url ++ " to path " ++ r.path ++ " failed: " ++ e

/-- The string a worker sends on resultChan when bareMirrorClone succeeds:
fmt.Sprintf("Cloned %s to path %s", req.url, req.path). -/
def clonedMsg (r : Req) : String :=
  "Cloned " ++ r.url ++ " to path " ++ r.path

/-- The sentinel string the orchestrator sends on resultChan to shut the
result collector down ("done" in cloneRepos). -/
def doneSentinel : String := "done"

/-- The per-job clone result: none models a nil error from bareMirrorClone,
some e models a failed clone with error text e.  The oracle is indexed by
the dispatch position of the job in config.Repos. -/
def CloneOracle : Type := Nat → Option String

/-- The outcome message a worker sends for job i: the failure line when the
clone errored, the "Cloned" line otherwise. -/
def outcomeMsg (jobs : List Req) (res : CloneOracle) (i : Nat) : String :=
  match res i with
  | some e => failMsg (jobs.getD i ⟨"", ""⟩) e
  | none => clonedMsg (jobs.getD i ⟨"", ""⟩)

/- ----------------------------------------------------------------- -/
/- Archive writer (compress in main.go).                             -/
/- ----------------------------------------------------------------- -/

/-- An abstract filesystem entry under the staging directory.  A file
carries its byte content and whether os.Open on it succeeds; a directory
carries its child entries, assumed listed in the traversal order used by
filepath.Walk. -/
inductive FSEntry where
  | file (name : String) (content : List Nat) (readable : Bool)
  | dir (name : String) (entries : List FSEntry)

/-- One entry as written into the tar stream: the header name, whether the
header describes a directory, the size declared by the header, and the
content bytes actually written after the header. -/
structure TarEntry where
  name : String
  isDir : Bool
  size : Nat
  written : List Nat
deriving DecidableEq

/-- The archive name of an entry: filepath.ToSlash(filepath.Join("codepack",
relPath)).  The relative path is a list of path segments; the staging root
itself has relative path [] (filepath.Rel gives "." and Join cleans it away),
and all joins use the forward slash. -/
def codepackName (rel : List String) : String :=
  if rel.isEmpty then "codepack" else "codepack/" ++ String.intercalate "/" rel

/-- The result of one invocation of the walk callback in compress: the tar
entries it appended, or an aborting error (the entries appended before the
error, and whether the tar stream is left inside an unfinished regular-file
entry).  The panicked value represents a runtime crash; walkFn never
produces it — tar.FileInfoHeader guards a nil FileInfo with an error — and
the value is kept so that the absence of a crash on the nil-info path is an
expressible, provable fact. -/
inductive CBRes where
  | emit (es : List TarEntry)
  | fail (es : List TarEntry) (unfinished : Bool)
  | panicked
deriving DecidableEq

/-- archive/tar.FileInfoHeader as the walk callback uses it, modelled from
the Go standard library: the function begins with an explicit nil guard and
returns the error "archive/tar: FileInfo is nil" for a nil FileInfo; on a
real FileInfo it fills a header carrying the entry's metadata (directory
flag and declared size; the callback overwrites the name afterwards). -/
def tarFileInfoHeader (info : Option FSEntry) : Except String TarEntry :=
  match info with
  | none => Except.error "archive/tar: FileInfo is nil"
  | some (FSEntry.dir n _) => Except.ok ⟨n, true, 0, []⟩
  | some (FSEntry.file n c _) => Except.ok ⟨n, false, c.length, []⟩

set_option linter.unusedVariables false in
/-- The walk callback of compress.  Its error argument is bound by the
callback signature but never inspected: the first statement shadows err
with the error result of tar.FileInfoHeader(info, ""), and the callback's
first check returns that error, so a nil info (the walk reporting an entry
it could not stat) aborts the walk with the FileInfoHeader error before any
header is written.  For a real entry the callback writes the header (named
by codepackName); for a regular file it then opens and streams the content,
and a failing os.Open aborts the walk after the header is already in the
stream.  The last branch is unreachable: tarFileInfoHeader never succeeds
on a nil info. -/
def walkFn (rel : List String) (info : Option FSEntry) (errArg : Option String) :
    CBRes :=
  match tarFileInfoHeader info, info with
  | Except.error _, _ => CBRes.fail [] false
  | Except.ok _, some (FSEntry.dir _ _) =>
      CBRes.emit [⟨codepackName rel, true, 0, []⟩]
  | Except.ok _, some (FSEntry.file _ c true) =>
      CBRes.emit [⟨codepackName rel, false, c.length, c⟩]
  | Except.ok _, some (FSEntry.file _ c false) =>
      CBRes.fail [⟨codepackName rel, false, c.length, []⟩] (decide (c ≠ []))
  | Except.ok _, none => CBRes.fail [] false

mutual

/-- The entries filepath.Walk visits inside one entry rooted at the given
relative-path prefix: the entry itself first, then its subtree. -/
def walkFrom (pre : List String) : FSEntry → List (List String × FSEntry)
  | FSEntry.file n c r => [(pre ++ [n], FSEntry.file n c r)]
  | FSEntry.dir n es => (pre ++ [n], FSEntry.dir n es) :: walkList (pre ++ [n]) es

/-- The walk of a list of sibling entries, in order. -/
def walkList (pre : List String) : List FSEntry → List (List String × FSEntry)
  | [] => []
  | e :: es => walkFrom pre e ++ walkList pre es

end

/-- The full walk of the staging root: filepath.Walk visits the root itself
(relative path []) and then its children. -/
def walkRoot : FSEntry → List (List String × FSEntry)
  | FSEntry.file n c r => [([], FSEntry.file n c r)]
  | FSEntry.dir n es => ([], FSEntry.dir n es) :: walkList [] es

/-- Folding the walk callback over the walked entries, the way filepath.Walk
drives it: a callback error stops the walk at once.  Returns the tar entries
written and whether the stream was left inside an unfinished regular-file
entry (a header whose declared content never arrived). -/
def runWalk : List (List String × FSEntry) → List TarEntry × Bool
  | [] => ([], false)
  | (rel, e) :: rest =>
    match walkFn rel (some e) none with
    | CBRes.emit es =>
        let r := runWalk rest
        (es ++ r.1, r.2)
    | CBRes.fail es unfinished => (es, unfinished)
    | CBRes.panicked => ([], true)

/-- compress of main.go over the staging tree.  The return value of
filepath.Walk is discarded, so a callback error never reaches the caller;
the only checked errors are tw.Close() — which fails exactly when the last
header's content was never written — and zr.Close(), which surfaces a write
failure of the output sink (sinkOk models a sink whose writes all succeed).
On success the archive holds the written entries. -/
def compress (fs : FSEntry) (sinkOk : Bool) : Except String (List TarEntry) :=
  let r := runWalk (walkRoot fs)
  if r.2 then Except.error "archive tar: missed writing file content"
  else if sinkOk then Except.ok r.1
  else Except.error "write to output sink failed"

/-- Whether os.Open succeeds on an entry (directories are never opened). -/
def entryOK : FSEntry → Bool
  | FSEntry.file _ _ r => r
  | FSEntry.dir _ _ => true

/-- Every entry the walk visits under the root is readable. -/
def allReadable (fs : FSEntry) : Bool :=
  (walkRoot fs).all fun pe => entryOK pe.2

/-- The first entry of a walked list on which the callback errors. -/
def firstBlocked : List (List String × FSEntry) → Option FSEntry
  | [] => none
  | (_, e) :: rest => if entryOK e then firstBlocked rest else some e

/-- Whether the walk of the tree aborts in the middle of a regular-file
entry with nonzero declared size, which is the only abort tw.Close detects. -/
def truncErr (fs : FSEntry) : Bool :=
  match firstBlocked (walkRoot fs) with
  | some (FSEntry.file _ c false) => decide (c ≠ [])
  | _ => false

/-- The tar entry compress writes for one successfully processed walk item. -/
def mkEntry (pe : List String × FSEntry) : TarEntry :=
  match pe.2 with
  | FSEntry.dir _ _ => ⟨codepackName pe.1, true, 0, []⟩
  | FSEntry.file _ c _ => ⟨codepackName pe.1, false, c.length, c⟩

/- ----------------------------------------------------------------- -/
/- Clone orchestration (cloneRepos in main.go).                      -/
/- ----------------------------------------------------------------- -/

/-- The program counter of one clone worker goroutine.  A worker loops:
receive a request from repoChan, send the "Cloning" line on resultChan,
run bareMirrorClone, send the outcome line on resultChan, bump the matching
atomic counter, call wg.Done(), and loop back to receive. -/
inductive WSt where
  | idle
  | gotJob (i : Nat)
  | cloned (i : Nat)
  | tallying (i : Nat)
  | finishing (i : Nat)
deriving DecidableEq

/-- The program counter of the main goroutine inside cloneRepos: the
dispatch loop (wg.Add(1) then the repoChan send for job i), the first
wg.Wait(), the wg.Add(1) for the collector, the "done" send, the final
wg.Wait(), and the return point. -/
inductive MSt where
  | dispatching (i : Nat)
  | sending (i : Nat)
  | waiting
  | addingDone
  | sendingDone
  | waitingFinal
  | finished
deriving DecidableEq

/-- The program counter of the result-collector goroutine: looping on
resultChan, about to run the "done" branch (log, wg.Done(), break), or
terminated. -/
inductive CSt where
  | running
  | draining
  | stopped
deriving DecidableEq

/-- A state of cloneRepos: the three kinds of goroutine, the WaitGroup
counter, the two atomic counters, and a ghost history of the job indices
whose outcome has been tallied, in tally order.  The ghost history is
written by no guard and read by no transition. -/
structure St where
  ms : MSt
  ws : List WSt
  cs : CSt
  wg : Nat
  succ : Nat
  fail : Nat
  hist : List Nat
deriving DecidableEq

/-- Provenance tag of a resultChan message, recording which send produced
it: a worker's pre-clone line, a worker's outcome line for job i, or the
orchestrator's shutdown sentinel. -/
inductive Tag where
  | start (i : Nat)
  | outcome (i : Nat)
  | done
deriving DecidableEq

/-- Observable events of a run: the rendezvous handing job i to a worker on
repoChan, the rendezvous delivering a string on resultChan, or an internal
step. -/
inductive Label where
  | dispatch (i : Nat)
  | msg (t : Tag) (s : String)
  | tau
deriving DecidableEq

/-- The collector's reaction to a delivered resultChan string: it compares
the string with the sentinel "done"; on a match it enters the shutdown
branch, otherwise it logs and keeps looping. -/
def collectorNext (s : String) : CSt :=
  if s = doneSentinel then CSt.draining else CSt.running

/-- The number of worker goroutines cloneRepos starts:
int(math.Min(float64(workers), float64(len(config.Repos)))) iterations of
the spawn loop, which is min(workers, N) clamped below at zero since a
negative bound ends the loop at once.  (The float64 round trip is exact for
every magnitude below 2^53.) -/
def numWorkers (workers : Int) (n : Nat) : Nat :=
  (min workers (n : Int)).toNat

/-- The initial state of cloneRepos: the spawned workers all blocked on
repoChan, the collector looping, counters zero, main about to dispatch the
first job. -/
def initState (jobs : List Req) (workers : Int) : St :=
  ⟨MSt.dispatching 0, List.replicate (numWorkers workers jobs.length) WSt.idle,
    CSt.running, 0, 0, 0, []⟩

/-- One interleaved step of cloneRepos.  Unbuffered channel operations are
rendezvous: a single transition is both the send and the matching receive,
and a resultChan delivery also runs the collector's comparison with the
sentinel (collectorNext). -/
inductive Step (jobs : List Req) (res : CloneOracle) : St → Label → St → Prop where
  | mainAdd {i ws cs wg su fa h} (hi : i < jobs.length) :
      Step jobs res ⟨MSt.dispatching i, ws, cs, wg, su, fa, h⟩ Label.tau
        ⟨MSt.sending i, ws, cs, wg + 1, su, fa, h⟩
  | mainExit {ws cs wg su fa h} :
      Step jobs res ⟨MSt.dispatching jobs.length, ws, cs, wg, su, fa, h⟩ Label.tau
        ⟨MSt.waiting, ws, cs, wg, su, fa, h⟩
  | recvJob {i ws cs wg su fa h} (w : Nat) (hw : ws[w]? = some WSt.idle) :
      Step jobs res ⟨MSt.sending i, ws, cs, wg, su, fa, h⟩ (Label.dispatch i)
        ⟨MSt.dispatching (i + 1), ws.set w (WSt.gotJob i), cs, wg, su, fa, h⟩
  | sendStart {ms ws wg su fa h} (w i : Nat) (hw : ws[w]? = some (WSt.gotJob i)) :
      Step jobs res ⟨ms, ws, CSt.running, wg, su, fa, h⟩
        (Label.msg (Tag.start i) (startMsg (jobs.getD i ⟨"", ""⟩)))
        ⟨ms, ws.set w (WSt.cloned i), collectorNext (startMsg (jobs.getD i ⟨"", ""⟩)),
          wg, su, fa, h⟩
  | sendOutcome {ms ws wg su fa h} (w i : Nat) (hw : ws[w]? = some (WSt.cloned i)) :
      Step jobs res ⟨ms, ws, CSt.running, wg, su, fa, h⟩
        (Label.msg (Tag.outcome i) (outcomeMsg jobs res i))
        ⟨ms, ws.set w (WSt.tallying i), collectorNext (outcomeMsg jobs res i),
          wg, su, fa, h⟩
  | tallyFail {ms ws cs wg su fa h} (w i : Nat) (e : String)
      (hw : ws[w]? = some (WSt.tallying i)) (hr : res i = some e) :
      Step jobs res ⟨ms, ws, cs, wg, su, fa, h⟩ Label.tau
        ⟨ms, ws.set w (WSt.finishing i), cs, wg, su, fa + 1, h ++ [i]⟩
  | tallySucc {ms ws cs wg su fa h} (w i : Nat)
      (hw : ws[w]? = some (WSt.tallying i)) (hr : res i = none) :
      Step jobs res ⟨ms, ws, cs, wg, su, fa, h⟩ Label.tau
        ⟨ms, ws.set w (WSt.finishing i), cs, wg, su + 1, fa, h ++ [i]⟩
  | wgDone {ms ws cs k su fa h} (w i : Nat) (hw : ws[w]? = some (WSt.finishing i)) :
      Step jobs res ⟨ms, ws, cs, k + 1, su, fa, h⟩ Label.tau
        ⟨ms, ws.set w WSt.idle, cs, k, su, fa, h⟩
  | mainWait {ws cs su fa h} :
      Step jobs res ⟨MSt.waiting, ws, cs, 0, su, fa, h⟩ Label.tau
        ⟨MSt.addingDone, ws, cs, 0, su, fa, h⟩
  | mainAddDone {ws cs wg su fa h} :
      Step jobs res ⟨MSt.addingDone, ws, cs, wg, su, fa, h⟩ Label.tau
        ⟨MSt.sendingDone, ws, cs, wg + 1, su, fa, h⟩
  | sendDone {ws wg su fa h} :
      Step jobs res ⟨MSt.sendingDone, ws, CSt.running, wg, su, fa, h⟩
        (Label.msg Tag.done doneSentinel)
        ⟨MSt.waitingFinal, ws, collectorNext doneSentinel, wg, su, fa, h⟩
  | collectorDone {ms ws k su fa h} :
      Step jobs res ⟨ms, ws, CSt.draining, k + 1, su, fa, h⟩ Label.tau
        ⟨ms, ws, CSt.stopped, k, su, fa, h⟩
  | mainWaitFinal {ws cs su fa h} :
      Step jobs res ⟨MSt.waitingFinal, ws, cs, 0, su, fa, h⟩ Label.tau
        ⟨MSt.finished, ws, cs, 0, su, fa, h⟩

/-- A finite execution: a sequence of steps with its trace of labels. -/
inductive Exec (jobs : List Req) (res : CloneOracle) : St → List Label → St → Prop where
  | refl (s : St) : Exec jobs res s [] s
  | step {s l s1 tr s2} : Step jobs res s l s1 → Exec jobs res s1 tr s2 →
      Exec jobs res s (l :: tr) s2

/-- The value cloneRepos returns from a completed state: some count models
the aggregate error fmt.Errorf("%d failure(s)...", failures.Load()) when the
failure counter is nonzero, none models the nil return. -/
def cloneReposReturn (s : St) : Option Nat :=
  if s.fail ≠ 0 then some s.fail else none

/-- The number of configured jobs whose clone the oracle fails. -/
def countFail (jobs : List Req) (res : CloneOracle) : Nat :=
  ((List.range jobs.length).filter fun i => (res i).isSome).length

/-- The number of configured jobs whose clone the oracle lets succeed. -/
def countSucc (jobs : List Req) (res : CloneOracle) : Nat :=
  ((List.range jobs.length).filter fun i => (res i).isNone).length

/- Derived accounting used by the run invariant. -/

/-- The job index a worker holds before its tally, if any. -/
def holdsIdx : WSt → Option Nat
  | WSt.gotJob i => some i
  | WSt.cloned i => some i
  | WSt.tallying i => some i
  | _ => none

/-- Whether a worker has tallied but not yet called wg.Done(). -/
def isFin : WSt → Bool
  | WSt.finishing _ => true
  | _ => false

/-- The indices currently held by workers that have not tallied yet. -/
def heldPre (ws : List WSt) : List Nat := ws.filterMap holdsIdx

/-- The number of workers past their tally but before their wg.Done(). -/
def finCount (ws : List WSt) : Nat := (ws.filter isFin).length

/-- WaitGroup units held by main between its wg.Add(1) and the repoChan
send of one job. -/
def bSend : MSt → Nat
  | MSt.sending _ => 1
  | _ => 0

/-- WaitGroup units held by main between the post-barrier wg.Add(1) and the
"done" send. -/
def bDoneTok : MSt → Nat
  | MSt.sendingDone => 1
  | _ => 0

/-- WaitGroup units held by the collector between receiving "done" and its
wg.Done(). -/
def bDrain : CSt → Nat
  | CSt.draining => 1
  | _ => 0

/-- How many jobs main has handed to workers over repoChan so far. -/
def handed (n : Nat) : MSt → Nat
  | MSt.dispatching i => i
  | MSt.sending i => i
  | _ => n

/-- Whether main is past the first wg.Wait() barrier. -/
def phase2 : MSt → Bool
  | MSt.addingDone => true
  | MSt.sendingDone => true
  | MSt.waitingFinal => true
  | MSt.finished => true
  | _ => false

/-- Whether main is past the "done" send. -/
def postDone : MSt → Bool
  | MSt.waitingFinal => true
  | MSt.finished => true
  | _ => false

/-- The inductive invariant of a cloneRepos run, relating a reachable state
to the trace that produced it.  wgEq is the WaitGroup ledger; histPerm says
the tallied history plus the jobs currently held by workers is exactly the
set of jobs handed out; failEq and succEq tie the atomic counters to the
history; the remaining fields link goroutine program counters to each other
and to the trace. -/
structure RunInv (jobs : List Req) (res : CloneOracle) (tr : List Label) (s : St) :
    Prop where
  wgEq : s.wg =
    bSend s.ms + (heldPre s.ws).length + finCount s.ws + bDoneTok s.ms + bDrain s.cs
  histPerm : (s.hist ++ heldPre s.ws).Perm (List.range (handed jobs.length s.ms))
  failEq : s.fail = (s.hist.filter fun i => (res i).isSome).length
  succEq : s.succ = (s.hist.filter fun i => (res i).isNone).length
  dispIdx : ∀ i, (s.ms = MSt.dispatching i → i ≤ jobs.length) ∧
    (s.ms = MSt.sending i → i < jobs.length)
  p2Idle : phase2 s.ms = true → ∀ w ∈ s.ws, w = WSt.idle
  outTr : ∀ i, (i ∈ s.hist ∨ ∃ w ∈ s.ws, w = WSt.tallying i ∨ w = WSt.finishing i) →
    ∃ str, Label.msg (Tag.outcome i) str ∈ tr
  dispTr : ∀ i, i < handed jobs.length s.ms → Label.dispatch i ∈ tr
  csRun : s.cs ≠ CSt.running → postDone s.ms = true
  doneTr : s.cs ≠ CSt.running → Label.msg Tag.done doneSentinel ∈ tr
  noDone : postDone s.ms = false → ∀ d, Label.msg Tag.done d ∉ tr
  csNotRun : postDone s.ms = true → s.cs ≠ CSt.running
  finWg : s.ms = MSt.finished → s.wg = 0

/- ----------------------------------------------------------------- -/
/- Process exit contract (Exit and main in main.go).                 -/
/- ----------------------------------------------------------------- -/

/-- func Exit of main.go: os.Exit(-1) when called with a non-nil error,
os.Exit(1) when called with nil. -/
def Exit (err : Option String) : Int :=
  if err.isSome then -1 else 1

/-- The terminal outcomes of one invocation of main, by failure class.  Each
constructor is one exit path of main.go. -/
inductive Scenario where
  | versionFlag
  | logOpenErr
  | configErr
  | tempDirErr
  | cloneErr
  | skipTarRenameErr
  | skipTarOk
  | archiveErr
  | cleanupErr
  | fullOk
deriving DecidableEq

/-- The argument main.go passes to os.Exit on each path: Exit(nil) after
printing the version and after a successful -skiptar rename, Exit(err) on
every failure, and the implicit exit status 0 when main returns normally
after a successful compressToFile and cleanup. -/
def exitCode : Scenario → Int
  | Scenario.versionFlag => Exit none
  | Scenario.logOpenErr => Exit (some "cannot open log file")
  | Scenario.configErr => Exit (some "failed to open configuration file")
  | Scenario.tempDirErr => Exit (some "mkdir temp")
  | Scenario.cloneErr => Exit (some "failure(s) cloning repositories")
  | Scenario.skipTarRenameErr => Exit (some "failed to move")
  | Scenario.skipTarOk => Exit none
  | Scenario.archiveErr => Exit (some "failed to compress files")
  | Scenario.cleanupErr => Exit (some "failed to cleanup temporary directory")
  | Scenario.fullOk => 0

/-- The process exit status the operating system reports for an os.Exit
argument: the low eight bits, so os.Exit(-1) is observed as 255. -/
def observedStatus (c : Int) : Nat := (c % 256).toNat

/- ----------------------------------------------------------------- -/
/- Concrete fixtures used by witnesses and counterexamples.          -/
/- ----------------------------------------------------------------- -/

/-- A one-repository configuration. -/
def jobs1 : List Req := [⟨"u", "p"⟩]

/-- An oracle failing every clone with error text "boom". -/
def res1 : CloneOracle := fun _ => some "boom"

/-- The completed state of the canonical one-worker run of jobs1 under
res1. -/
def sfin1 : St := ⟨MSt.finished, [WSt.idle], CSt.stopped, 0, 0, 1, [0]⟩

/-- The labels of that run up to and excluding the "done" send. -/
def u1 : List Label :=
  [Label.tau, Label.dispatch 0, Label.tau,
    Label.msg (Tag.start 0) "Cloning u to path p",
    Label.msg (Tag.outcome 0) "Cloning u to path p failed: boom",
    Label.tau, Label.tau, Label.tau, Label.tau]

/-- The labels of that run after the "done" send. -/
def v1 : List Label := [Label.tau, Label.tau]

/-- The full trace of the canonical run of jobs1 under res1. -/
def tr1 : List Label := u1 ++ Label.msg Tag.done "done" :: v1

/-- A staging tree with a single unreadable, empty file. -/
def cexFS : FSEntry := FSEntry.dir "repo" [FSEntry.file "a" [] false]

/-- A small fully readable staging tree. -/
def fs6 : FSEntry :=
  FSEntry.dir "stage" [FSEntry.dir "tools" [FSEntry.file "grype" [1, 2] true]]

/- ----------------------------------------------------------------- -/
/- Theorems.                                                         -/
/- ----------------------------------------------------------------- -/

lemma data_append (a b : String) : (a ++ b).data = a.data ++ b.data :=
  String.data_append a b

/-- The pre-clone line can never equal the shutdown sentinel. -/
lemma startMsg_ne_done (r : Req) : startMsg r ≠ doneSentinel := by
  intro hcontra
  have h2 := congrArg String.data hcontra
  obtain ⟨u⟩ := r.url
  obtain ⟨p⟩ := r.path
  simp [startMsg, doneSentinel, data_append] at h2

/-- The failure line can never equal the shutdown sentinel. -/
lemma failMsg_ne_done (r : Req) (e : String) : failMsg r e ≠ doneSentinel := by
  intro hcontra
  have h2 := congrArg String.data hcontra
  obtain ⟨u⟩ := r.url
  obtain ⟨p⟩ := r.path
  obtain ⟨d⟩ := e
  simp [failMsg, doneSentinel, data_append] at h2

/-- The success line can never equal the shutdown sentinel. -/
lemma clonedMsg_ne_done (r : Req) : clonedMsg r ≠ doneSentinel := by
  intro hcontra
  have h2 := congrArg String.data hcontra
  obtain ⟨u⟩ := r.url
  obtain ⟨p⟩ := r.path
  simp [clonedMsg, doneSentinel, data_append] at h2

/-- No outcome line can equal the shutdown sentinel. -/
lemma outcomeMsg_ne_done (jobs : List Req) (res : CloneOracle) (i : Nat) :
    outcomeMsg jobs res i ≠ doneSentinel := by
  unfold outcomeMsg
  cases res i
  · exact clonedMsg_ne_done _
  · exact failMsg_ne_done _ _

/-- The collector keeps looping on a worker's pre-clone line. -/
lemma collectorNext_start (r : Req) : collectorNext (startMsg r) = CSt.running := by
  simp [collectorNext, startMsg_ne_done r]

/-- The collector keeps looping on a worker's outcome line. -/
lemma collectorNext_outcome (jobs : List Req) (res : CloneOracle) (i : Nat) :
    collectorNext (outcomeMsg jobs res i) = CSt.running := by
  simp [collectorNext, outcomeMsg_ne_done jobs res i]

/-- The collector enters its shutdown branch on the sentinel. -/
lemma collectorNext_done : collectorNext doneSentinel = CSt.draining := by
  simp [collectorNext]

lemma mem_snoc {a l : Label} {tr : List Label} (h : a ∈ tr) : a ∈ tr ++ [l] :=
  List.mem_append_left _ h

lemma notMem_snoc {a l : Label} {tr : List Label} (h : a ∉ tr) (hne : a ≠ l) :
    a ∉ tr ++ [l] := by
  intro hm
  rcases List.mem_append.mp hm with h1 | h1
  · exact h h1
  · exact hne (List.mem_singleton.mp h1)

lemma filterMap_set_perm {α β : Type} [DecidableEq β] (f : α → Option β) :
    ∀ (l : List α) (w : Nat) (x y : α), l[w]? = some x →
    ((l.set w y).filterMap f ++ (f x).toList).Perm (l.filterMap f ++ (f y).toList) := by
  intro l
  induction l with
  | nil => intro w x y hw; simp at hw
  | cons a t ih =>
    intro w x y hw
    cases w with
    | zero =>
      simp only [List.getElem?_cons_zero, Option.some_inj] at hw
      subst hw
      simp only [List.set]
      cases h1 : f a <;> cases h2 : f y <;>
        simp [List.filterMap_cons, h1, h2] <;>
        refine List.perm_iff_count.mpr fun b => ?_ <;>
        simp [List.count_append, List.count_cons] <;> omega
    | succ w2 =>
      simp only [List.getElem?_cons_succ] at hw
      have hih := ih w2 x y hw
      simp only [List.set]
      cases h1 : f a <;> simp [List.filterMap_cons, h1]
      · exact hih
      · refine List.perm_iff_count.mpr fun b => ?_
        have hc := List.perm_iff_count.mp hih b
        simp [List.count_append, List.count_cons] at hc ⊢
        omega

lemma filter_length_set {α : Type} (p : α → Bool) :
    ∀ (l : List α) (w : Nat) (x y : α), l[w]? = some x →
    ((l.set w y).filter p).length + (if p x then 1 else 0)
      = (l.filter p).length + (if p y then 1 else 0) := by
  intro l
  induction l with
  | nil => intro w x y hw; simp at hw
  | cons a t ih =>
    intro w x y hw
    cases w with
    | zero =>
      simp only [List.getElem?_cons_zero, Option.some_inj] at hw
      subst hw
      simp only [List.set]
      cases h1 : p a <;> cases h2 : p y <;> simp [List.filter_cons, h1, h2]
    | succ w2 =>
      simp only [List.getElem?_cons_succ] at hw
      have hih := ih w2 x y hw
      simp only [List.set]
      cases h1 : p a <;> simp [List.filter_cons, h1] <;> omega

lemma mem_of_getElemQ {α : Type} {l : List α} {n : Nat} {a : α} (h : l[n]? = some a) :
    a ∈ l := by
  obtain ⟨hn, rfl⟩ := List.getElem?_eq_some.mp h
  exact List.getElem_mem hn

lemma perm_cancel_right {l1 l2 s : List Nat} (hp : (l1 ++ s).Perm (l2 ++ s)) :
    l1.Perm l2 := by
  refine List.perm_iff_count.mpr fun b => ?_
  have hb := List.perm_iff_count.mp hp b
  simp [List.count_append] at hb
  omega

lemma all_idle_of {ws : List WSt} (h1 : heldPre ws = []) (h2 : finCount ws = 0) :
    ∀ w ∈ ws, w = WSt.idle := by
  intro w hw
  have hm := List.filterMap_eq_nil.mp h1 w hw
  have hf := List.filter_eq_nil.mp (List.length_eq_zero.mp h2) w hw
  cases w with
  | idle => rfl
  | gotJob i => simp [holdsIdx] at hm
  | cloned i => simp [holdsIdx] at hm
  | tallying i => simp [holdsIdx] at hm
  | finishing i => simp [isFin] at hf

lemma range_snoc (n : Nat) : List.range (n + 1) = List.range n ++ [n] := by
  rw [← Nat.succ_eq_add_one, List.range_succ]

lemma phase2_of_postDone {m : MSt} (h : postDone m = true) : phase2 m = true := by
  cases m <;> simp [postDone, phase2] at h ⊢

lemma filter_some_none_length (res : CloneOracle) (l : List Nat) :
    (l.filter fun i => (res i).isSome).length
      + (l.filter fun i => (res i).isNone).length = l.length := by
  induction l with
  | nil => rfl
  | cons a t ih =>
    cases h : res a <;> simp [List.filter_cons, h] <;> omega

/-- Every step of a cloneRepos run preserves the run invariant. -/
lemma runInv_step {jobs : List Req} {res : CloneOracle} {tr : List Label} {s : St}
    {l : Label} {s1 : St} (hs : Step jobs res s l s1) (hI : RunInv jobs res tr s) :
    RunInv jobs res (tr ++ [l]) s1 := by
  cases hs with
  | @mainAdd i ws cs wg su fa h hi =>
    have h1 := hI.wgEq
    simp only [bSend, bDoneTok] at h1
    refine ⟨?_, ?_, hI.failEq, hI.succEq, ?_, ?_, ?_, ?_, ?_, ?_, ?_, ?_, ?_⟩
    · simp only [bSend, bDoneTok]; omega
    · simpa [handed] using hI.histPerm
    · refine fun i2 => ⟨fun he => by simp at he, fun he => ?_⟩
      cases he; exact hi
    · intro hp; simp [phase2] at hp
    · intro i2 hh
      obtain ⟨str, hstr⟩ := hI.outTr i2 hh
      exact ⟨str, mem_snoc hstr⟩
    · intro i2 hlt
      exact mem_snoc (hI.dispTr i2 (by simpa [handed] using hlt))
    · intro hcs; exact absurd (hI.csRun hcs) (by simp [postDone])
    · intro hcs; exact mem_snoc (hI.doneTr hcs)
    · intro _ d; exact notMem_snoc (hI.noDone (by simp [postDone]) d) (by simp)
    · intro hpd; simp [postDone] at hpd
    · intro hf; simp at hf
  | @mainExit ws cs wg su fa h =>
    refine ⟨?_, ?_, hI.failEq, hI.succEq, ?_, ?_, ?_, ?_, ?_, ?_, ?_, ?_, ?_⟩
    · simpa only [bSend, bDoneTok] using hI.wgEq
    · have h2 := hI.histPerm
      simpa [handed] using h2
    · exact fun i2 => ⟨fun he => by simp at he, fun he => by simp at he⟩
    · intro hp; simp [phase2] at hp
    · intro i2 hh
      obtain ⟨str, hstr⟩ := hI.outTr i2 hh
      exact ⟨str, mem_snoc hstr⟩
    · intro i2 hlt
      exact mem_snoc (hI.dispTr i2 (by simpa [handed] using hlt))
    · intro hcs; exact absurd (hI.csRun hcs) (by simp [postDone])
    · intro hcs; exact mem_snoc (hI.doneTr hcs)
    · intro _ d; exact notMem_snoc (hI.noDone (by simp [postDone]) d) (by simp)
    · intro hpd; simp [postDone] at hpd
    · intro hf; simp at hf
  | @recvJob i ws cs wg su fa h w hw =>
    have hperm := filterMap_set_perm holdsIdx ws w WSt.idle (WSt.gotJob i) hw
    simp only [holdsIdx, Option.toList_none, Option.toList_some, List.append_nil]
      at hperm
    have hlen := hperm.length_eq
    simp only [List.length_append, List.length_singleton] at hlen
    have hfin := filter_length_set isFin ws w WSt.idle (WSt.gotJob i) hw
    simp only [isFin, if_neg, Bool.false_eq_true, if_false] at hfin
    have h1 := hI.wgEq
    simp only [bSend, bDoneTok] at h1
    have hi : i < jobs.length := (hI.dispIdx i).2 rfl
    refine ⟨?_, ?_, hI.failEq, hI.succEq, ?_, ?_, ?_, ?_, ?_, ?_, ?_, ?_, ?_⟩
    · simp only [bSend, bDoneTok]
      unfold heldPre finCount at *
      omega
    · simp only [handed]
      refine ((hperm.append_left h).trans ?_)
      rw [← List.append_assoc, range_snoc]
      exact hI.histPerm.append_right [i]
    · refine fun i2 => ⟨fun he => ?_, fun he => by simp at he⟩
      cases he; omega
    · intro hp; simp [phase2] at hp
    · intro i2 hh
      refine Exists.imp (fun str => mem_snoc) (hI.outTr i2 ?_)
      rcases hh with hh | ⟨w2, hw2, hkind⟩
      · exact Or.inl hh
      · rcases List.mem_or_eq_of_mem_set hw2 with hmem | rfl
        · exact Or.inr ⟨w2, hmem, hkind⟩
        · rcases hkind with hk | hk <;> simp at hk
    · intro i2 hlt
      simp only [handed] at hlt
      rcases Nat.lt_succ_iff_lt_or_eq.mp hlt with hlt2 | rfl
      · exact mem_snoc (hI.dispTr i2 (by simpa [handed] using hlt2))
      · exact List.mem_append_right _ (by simp)
    · intro hcs; exact absurd (hI.csRun hcs) (by simp [postDone])
    · intro hcs; exact mem_snoc (hI.doneTr hcs)
    · intro _ d; exact notMem_snoc (hI.noDone (by simp [postDone]) d) (by simp)
    · intro hpd; simp [postDone] at hpd
    · intro hf; simp at hf
  | @sendStart ms ws wg su fa h w i hw =>
    rw [collectorNext_start]
    have hperm := filterMap_set_perm holdsIdx ws w (WSt.gotJob i) (WSt.cloned i) hw
    simp only [holdsIdx, Option.toList_some] at hperm
    have hheld := perm_cancel_right hperm
    have hlen := hheld.length_eq
    have hfin := filter_length_set isFin ws w (WSt.gotJob i) (WSt.cloned i) hw
    simp only [isFin, Bool.false_eq_true, if_false] at hfin
    have hnp : postDone ms = false := by
      cases hcase : postDone ms
      · rfl
      · have := hI.p2Idle (phase2_of_postDone hcase) _ (mem_of_getElemQ hw)
        simp at this
    have h1 := hI.wgEq
    refine ⟨?_, ?_, hI.failEq, hI.succEq, ?_, ?_, ?_, ?_, ?_, ?_, ?_, ?_, ?_⟩
    · simp only [bDrain]
      simp only [bDrain] at h1
      unfold heldPre finCount at *
      omega
    · exact (hheld.append_left h).trans hI.histPerm
    · exact hI.dispIdx
    · intro hp
      exact absurd (hI.p2Idle hp _ (mem_of_getElemQ hw)) (by simp)
    · intro i2 hh
      refine Exists.imp (fun str => mem_snoc) (hI.outTr i2 ?_)
      rcases hh with hh | ⟨w2, hw2, hkind⟩
      · exact Or.inl hh
      · rcases List.mem_or_eq_of_mem_set hw2 with hmem | rfl
        · exact Or.inr ⟨w2, hmem, hkind⟩
        · rcases hkind with hk | hk <;> simp at hk
    · intro i2 hlt
      exact mem_snoc (hI.dispTr i2 hlt)
    · intro hcs; exact absurd rfl hcs
    · intro hcs; exact absurd rfl hcs
    · intro _ d; exact notMem_snoc (hI.noDone hnp d) (by simp)
    · intro hpd
      have hpd2 : postDone ms = true := hpd
      rw [hnp] at hpd2
      exact absurd hpd2 (by simp)
    · intro hf
      have hf2 : ms = MSt.finished := hf
      rw [hf2] at hnp
      simp [postDone] at hnp
  | @sendOutcome ms ws wg su fa h w i hw =>
    rw [collectorNext_outcome]
    have hperm := filterMap_set_perm holdsIdx ws w (WSt.cloned i) (WSt.tallying i) hw
    simp only [holdsIdx, Option.toList_some] at hperm
    have hheld := perm_cancel_right hperm
    have hlen := hheld.length_eq
    have hfin := filter_length_set isFin ws w (WSt.cloned i) (WSt.tallying i) hw
    simp only [isFin, Bool.false_eq_true, if_false] at hfin
    have hnp : postDone ms = false := by
      cases hcase : postDone ms
      · rfl
      · have := hI.p2Idle (phase2_of_postDone hcase) _ (mem_of_getElemQ hw)
        simp at this
    have h1 := hI.wgEq
    refine ⟨?_, ?_, hI.failEq, hI.succEq, ?_, ?_, ?_, ?_, ?_, ?_, ?_, ?_, ?_⟩
    · simp only [bDrain]
      simp only [bDrain] at h1
      unfold heldPre finCount at *
      omega
    · exact (hheld.append_left h).trans hI.histPerm
    · exact hI.dispIdx
    · intro hp
      exact absurd (hI.p2Idle hp _ (mem_of_getElemQ hw)) (by simp)
    · intro i2 hh
      rcases hh with hh | ⟨w2, hw2, hkind⟩
      · exact Exists.imp (fun str => mem_snoc) (hI.outTr i2 (Or.inl hh))
      · rcases List.mem_or_eq_of_mem_set hw2 with hmem | rfl
        · exact Exists.imp (fun str => mem_snoc) (hI.outTr i2 (Or.inr ⟨w2, hmem, hkind⟩))
        · have hi2 : i2 = i := by
            rcases hkind with hk | hk
            · exact (WSt.tallying.inj hk).symm
            · exact absurd hk (by simp)
          subst hi2
          exact ⟨outcomeMsg jobs res i2, List.mem_append_right _ (by simp)⟩
    · intro i2 hlt
      exact mem_snoc (hI.dispTr i2 hlt)
    · intro hcs; exact absurd rfl hcs
    · intro hcs; exact absurd rfl hcs
    · intro _ d; exact notMem_snoc (hI.noDone hnp d) (by simp)
    · intro hpd
      have hpd2 : postDone ms = true := hpd
      rw [hnp] at hpd2
      exact absurd hpd2 (by simp)
    · intro hf
      have hf2 : ms = MSt.finished := hf
      rw [hf2] at hnp
      simp [postDone] at hnp
  | @tallyFail ms ws cs wg su fa h w i e hw hr =>
    have hperm := filterMap_set_perm holdsIdx ws w (WSt.tallying i) (WSt.finishing i) hw
    simp only [holdsIdx, Option.toList_some, Option.toList_none, List.append_nil]
      at hperm
    have hlen := hperm.length_eq
    simp only [List.length_append, List.length_singleton] at hlen
    have hfin := filter_length_set isFin ws w (WSt.tallying i) (WSt.finishing i) hw
    simp only [isFin, Bool.false_eq_true, if_false, if_true] at hfin
    have h1 := hI.wgEq
    refine ⟨?_, ?_, ?_, ?_, hI.dispIdx, ?_, ?_, ?_, hI.csRun, ?_, ?_, hI.csNotRun, ?_⟩
    · simp only [bDrain] at h1 ⊢
      unfold heldPre finCount at *
      omega
    · refine List.Perm.trans ?_ hI.histPerm
      rw [List.append_assoc]
      exact (List.perm_append_comm.trans hperm).append_left h
    · have h2 : fa = (h.filter fun i2 => (res i2).isSome).length := hI.failEq
      show fa + 1 = ((h ++ [i]).filter fun i2 => (res i2).isSome).length
      simp only [List.filter_append, List.length_append, List.filter_cons, hr,
        Option.isSome_some, if_true, List.filter_nil, List.length_cons,
        List.length_nil]
      omega
    · have h2 : su = (h.filter fun i2 => (res i2).isNone).length := hI.succEq
      show su = ((h ++ [i]).filter fun i2 => (res i2).isNone).length
      simp only [List.filter_append, List.length_append, List.filter_cons, hr,
        Option.isNone_some, Bool.false_eq_true, if_false, List.filter_nil,
        List.length_nil]
      omega
    · intro hp
      exact absurd (hI.p2Idle hp _ (mem_of_getElemQ hw)) (by simp)
    · intro i2 hh
      refine Exists.imp (fun str => mem_snoc) (hI.outTr i2 ?_)
      rcases hh with hh | ⟨w2, hw2, hkind⟩
      · rcases List.mem_append.mp hh with hh2 | hh2
        · exact Or.inl hh2
        · have : i2 = i := List.mem_singleton.mp hh2
          subst this
          exact Or.inr ⟨WSt.tallying i2, mem_of_getElemQ hw, Or.inl rfl⟩
      · rcases List.mem_or_eq_of_mem_set hw2 with hmem | rfl
        · exact Or.inr ⟨w2, hmem, hkind⟩
        · have : i2 = i := by
            rcases hkind with hk | hk
            · exact absurd hk (by simp)
            · exact (WSt.finishing.inj hk).symm
          subst this
          exact Or.inr ⟨WSt.tallying i2, mem_of_getElemQ hw, Or.inl rfl⟩
    · intro i2 hlt
      exact mem_snoc (hI.dispTr i2 hlt)
    · intro hcs; exact mem_snoc (hI.doneTr hcs)
    · intro hpd d; exact notMem_snoc (hI.noDone hpd d) (by simp)
    · intro hf; exact hI.finWg hf
  | @tallySucc ms ws cs wg su fa h w i hw hr =>
    have hperm := filterMap_set_perm holdsIdx ws w (WSt.tallying i) (WSt.finishing i) hw
    simp only [holdsIdx, Option.toList_some, Option.toList_none, List.append_nil]
      at hperm
    have hlen := hperm.length_eq
    simp only [List.length_append, List.length_singleton] at hlen
    have hfin := filter_length_set isFin ws w (WSt.tallying i) (WSt.finishing i) hw
    simp only [isFin, Bool.false_eq_true, if_false, if_true] at hfin
    have h1 := hI.wgEq
    refine ⟨?_, ?_, ?_, ?_, hI.dispIdx, ?_, ?_, ?_, hI.csRun, ?_, ?_, hI.csNotRun, ?_⟩
    · simp only [bDrain] at h1 ⊢
      unfold heldPre finCount at *
      omega
    · refine List.Perm.trans ?_ hI.histPerm
      rw [List.append_assoc]
      exact (List.perm_append_comm.trans hperm).append_left h
    · have h2 : fa = (h.filter fun i2 => (res i2).isSome).length := hI.failEq
      show fa = ((h ++ [i]).filter fun i2 => (res i2).isSome).length
      simp only [List.filter_append, List.length_append, List.filter_cons, hr,
        Option.isSome_none, Bool.false_eq_true, if_false, List.filter_nil,
        List.length_nil]
      omega
    · have h2 : su = (h.filter fun i2 => (res i2).isNone).length := hI.succEq
      show su + 1 = ((h ++ [i]).filter fun i2 => (res i2).isNone).length
      simp only [List.filter_append, List.length_append, List.filter_cons, hr,
        Option.isNone_none, if_true, List.filter_nil, List.length_cons,
        List.length_nil]
      omega
    · intro hp
      exact absurd (hI.p2Idle hp _ (mem_of_getElemQ hw)) (by simp)
    · intro i2 hh
      refine Exists.imp (fun str => mem_snoc) (hI.outTr i2 ?_)
      rcases hh with hh | ⟨w2, hw2, hkind⟩
      · rcases List.mem_append.mp hh with hh2 | hh2
        · exact Or.inl hh2
        · have : i2 = i := List.mem_singleton.mp hh2
          subst this
          exact Or.inr ⟨WSt.tallying i2, mem_of_getElemQ hw, Or.inl rfl⟩
      · rcases List.mem_or_eq_of_mem_set hw2 with hmem | rfl
        · exact Or.inr ⟨w2, hmem, hkind⟩
        · have : i2 = i := by
            rcases hkind with hk | hk
            · exact absurd hk (by simp)
            · exact (WSt.finishing.inj hk).symm
          subst this
          exact Or.inr ⟨WSt.tallying i2, mem_of_getElemQ hw, Or.inl rfl⟩
    · intro i2 hlt
      exact mem_snoc (hI.dispTr i2 hlt)
    · intro hcs; exact mem_snoc (hI.doneTr hcs)
    · intro hpd d; exact notMem_snoc (hI.noDone hpd d) (by simp)
    · intro hf; exact hI.finWg hf
  | @wgDone ms ws cs k su fa h w i hw =>
    have hperm := filterMap_set_perm holdsIdx ws w (WSt.finishing i) WSt.idle hw
    simp only [holdsIdx, Option.toList_none, List.append_nil] at hperm
    have hlen := hperm.length_eq
    have hfin := filter_length_set isFin ws w (WSt.finishing i) WSt.idle hw
    simp only [isFin, Bool.false_eq_true, if_false, if_true] at hfin
    have h1 := hI.wgEq
    refine ⟨?_, ?_, hI.failEq, hI.succEq, hI.dispIdx, ?_, ?_, ?_, hI.csRun, ?_, ?_,
      hI.csNotRun, ?_⟩
    · simp only [bDrain] at h1 ⊢
      unfold heldPre finCount at *
      omega
    · exact (hperm.append_left h).trans hI.histPerm
    · intro hp
      exact absurd (hI.p2Idle hp _ (mem_of_getElemQ hw)) (by simp)
    · intro i2 hh
      refine Exists.imp (fun str => mem_snoc) (hI.outTr i2 ?_)
      rcases hh with hh | ⟨w2, hw2, hkind⟩
      · exact Or.inl hh
      · rcases List.mem_or_eq_of_mem_set hw2 with hmem | rfl
        · exact Or.inr ⟨w2, hmem, hkind⟩
        · rcases hkind with hk | hk <;> simp at hk
    · intro i2 hlt
      exact mem_snoc (hI.dispTr i2 hlt)
    · intro hcs; exact mem_snoc (hI.doneTr hcs)
    · intro hpd d; exact notMem_snoc (hI.noDone hpd d) (by simp)
    · intro hf; exact absurd (hI.finWg hf : k + 1 = 0) (Nat.succ_ne_zero k)
  | @mainWait ws cs su fa h =>
    have h1 := hI.wgEq
    simp only [bSend, bDoneTok] at h1
    have hheld : (heldPre ws).length = 0 ∧ finCount ws = 0 ∧ bDrain cs = 0 := by
      omega
    refine ⟨?_, ?_, hI.failEq, hI.succEq, ?_, ?_, ?_, ?_, ?_, ?_, ?_, ?_, ?_⟩
    · simp only [bSend, bDoneTok]; omega
    · simpa [handed] using hI.histPerm
    · exact fun i2 => ⟨fun he => by simp at he, fun he => by simp at he⟩
    · intro _
      exact all_idle_of (List.length_eq_zero.mp hheld.1) hheld.2.1
    · intro i2 hh
      exact Exists.imp (fun str => mem_snoc) (hI.outTr i2 hh)
    · intro i2 hlt
      exact mem_snoc (hI.dispTr i2 (by simpa [handed] using hlt))
    · intro hcs; exact absurd (hI.csRun hcs) (by simp [postDone])
    · intro hcs; exact mem_snoc (hI.doneTr hcs)
    · intro _ d; exact notMem_snoc (hI.noDone (by simp [postDone]) d) (by simp)
    · intro hpd; simp [postDone] at hpd
    · intro hf; simp at hf
  | @mainAddDone ws cs wg su fa h =>
    have h1 := hI.wgEq
    simp only [bSend, bDoneTok] at h1
    refine ⟨?_, ?_, hI.failEq, hI.succEq, ?_, ?_, ?_, ?_, ?_, ?_, ?_, ?_, ?_⟩
    · simp only [bSend, bDoneTok]; omega
    · simpa [handed] using hI.histPerm
    · exact fun i2 => ⟨fun he => by simp at he, fun he => by simp at he⟩
    · intro _
      exact hI.p2Idle (by simp [phase2])
    · intro i2 hh
      exact Exists.imp (fun str => mem_snoc) (hI.outTr i2 hh)
    · intro i2 hlt
      exact mem_snoc (hI.dispTr i2 (by simpa [handed] using hlt))
    · intro hcs; exact absurd (hI.csRun hcs) (by simp [postDone])
    · intro hcs; exact mem_snoc (hI.doneTr hcs)
    · intro _ d; exact notMem_snoc (hI.noDone (by simp [postDone]) d) (by simp)
    · intro hpd; simp [postDone] at hpd
    · intro hf; simp at hf
  | @sendDone ws wg su fa h =>
    rw [collectorNext_done]
    have h1 := hI.wgEq
    simp only [bSend, bDoneTok, bDrain] at h1
    refine ⟨?_, ?_, hI.failEq, hI.succEq, ?_, ?_, ?_, ?_, ?_, ?_, ?_, ?_, ?_⟩
    · simp only [bSend, bDoneTok, bDrain]; omega
    · simpa [handed] using hI.histPerm
    · exact fun i2 => ⟨fun he => by simp at he, fun he => by simp at he⟩
    · intro _
      exact hI.p2Idle (by simp [phase2])
    · intro i2 hh
      exact Exists.imp (fun str => mem_snoc) (hI.outTr i2 hh)
    · intro i2 hlt
      exact mem_snoc (hI.dispTr i2 (by simpa [handed] using hlt))
    · intro _; rfl
    · intro _; exact List.mem_append_right _ (by simp)
    · intro hpd; simp [postDone] at hpd
    · intro _; simp
    · intro hf; simp at hf
  | @collectorDone ms ws k su fa h =>
    have hpd : postDone ms = true := hI.csRun (by simp)
    have h1 : k + 1 = bSend ms + (heldPre ws).length + finCount ws + bDoneTok ms
        + bDrain CSt.draining := hI.wgEq
    simp only [bDrain] at h1
    refine ⟨?_, hI.histPerm, hI.failEq, hI.succEq, hI.dispIdx, hI.p2Idle, ?_, ?_,
      ?_, ?_, ?_, ?_, ?_⟩
    · simp only [bDrain]; omega
    · intro i2 hh
      exact Exists.imp (fun str => mem_snoc) (hI.outTr i2 hh)
    · intro i2 hlt
      exact mem_snoc (hI.dispTr i2 hlt)
    · intro _; exact hpd
    · intro _; exact mem_snoc (hI.doneTr (by simp))
    · intro hnd; exact absurd (hpd.symm.trans hnd) (by simp)
    · intro _; simp
    · intro hf; exact absurd (hI.finWg hf : k + 1 = 0) (Nat.succ_ne_zero k)
  | @mainWaitFinal ws cs su fa h =>
    have h1 := hI.wgEq
    simp only [bSend, bDoneTok] at h1
    refine ⟨?_, ?_, hI.failEq, hI.succEq, ?_, ?_, ?_, ?_, ?_, ?_, ?_, ?_, ?_⟩
    · simp only [bSend, bDoneTok]; omega
    · simpa [handed] using hI.histPerm
    · exact fun i2 => ⟨fun he => by simp at he, fun he => by simp at he⟩
    · intro _
      exact hI.p2Idle (by simp [phase2])
    · intro i2 hh
      exact Exists.imp (fun str => mem_snoc) (hI.outTr i2 hh)
    · intro i2 hlt
      exact mem_snoc (hI.dispTr i2 (by simpa [handed] using hlt))
    · intro _; rfl
    · intro hcs; exact mem_snoc (hI.doneTr hcs)
    · intro hpd; simp [postDone] at hpd
    · intro _; exact hI.csNotRun (by simp [postDone])
    · intro _; rfl

lemma heldPre_replicate (n : Nat) : heldPre (List.replicate n WSt.idle) = [] := by
  induction n with
  | zero => rfl
  | succ n ih => simpa [heldPre, List.replicate_succ, List.filterMap_cons, holdsIdx]
      using ih

lemma finCount_replicate (n : Nat) : finCount (List.replicate n WSt.idle) = 0 := by
  induction n with
  | zero => rfl
  | succ n ih => simpa [finCount, List.replicate_succ, List.filter_cons, isFin]
      using ih

/-- The initial state of a run satisfies the run invariant with the empty
trace. -/
lemma runInv_init (jobs : List Req) (res : CloneOracle) (W : Int) :
    RunInv jobs res [] (initState jobs W) := by
  unfold initState
  refine ⟨?_, ?_, rfl, rfl, ?_, ?_, ?_, ?_, ?_, ?_, ?_, ?_, ?_⟩
  · simp [bSend, bDoneTok, bDrain, heldPre_replicate, finCount_replicate]
  · simp [handed, heldPre_replicate]
  · refine fun i => ⟨fun he => ?_, fun he => by simp at he⟩
    cases he; exact Nat.zero_le _
  · intro hp; simp [phase2] at hp
  · intro i hh
    rcases hh with hh | ⟨w2, hw2, hk⟩
    · simp at hh
    · have := List.eq_of_mem_replicate hw2
      subst this
      rcases hk with hk | hk <;> simp at hk
  · intro i hlt; simp [handed] at hlt
  · intro hcs; exact absurd rfl hcs
  · intro hcs; exact absurd rfl hcs
  · intro _ d; simp
  · intro hpd; simp [postDone] at hpd
  · intro hf; simp at hf

/-- The run invariant holds along every execution. -/
lemma runInv_exec {jobs : List Req} {res : CloneOracle} {s : St} {trr : List Label}
    {s2 : St} (hex : Exec jobs res s trr s2) :
    ∀ {pre : List Label}, RunInv jobs res pre s → RunInv jobs res (pre ++ trr) s2 := by
  induction hex with
  | refl s => intro pre hI; simpa using hI
  | step hstep hrest ih =>
    intro pre hI
    have h2 := runInv_step hstep hI
    have h3 := ih h2
    rw [List.append_assoc] at h3
    simpa using h3

/-- Every completed run has tallied each job exactly once, its counters
match the oracle, its collector has stopped, and the sentinel was sent. -/
lemma final_state {jobs : List Req} {res : CloneOracle} {W : Int} {tr : List Label}
    {s2 : St} (hex : Exec jobs res (initState jobs W) tr s2)
    (hfin : s2.ms = MSt.finished) :
    s2.fail = countFail jobs res ∧ s2.succ = countSucc jobs res ∧
    s2.hist.Perm (List.range jobs.length) ∧ s2.cs = CSt.stopped ∧
    Label.msg Tag.done doneSentinel ∈ tr := by
  have hI := runInv_exec hex (runInv_init jobs res W)
  rw [List.nil_append] at hI
  have hidle := hI.p2Idle (by rw [hfin]; rfl)
  have hheld : heldPre s2.ws = [] := by
    apply List.filterMap_eq_nil.mpr
    intro a ha
    rw [hidle a ha]; rfl
  have hfc : finCount s2.ws = 0 := by
    unfold finCount
    rw [List.filter_eq_nil.mpr fun a ha => by rw [hidle a ha]; simp [isFin]]
    rfl
  have hperm : s2.hist.Perm (List.range jobs.length) := by
    have h2 := hI.histPerm
    rw [hheld, List.append_nil, hfin] at h2
    simpa [handed] using h2
  have hcs : s2.cs = CSt.stopped := by
    have hw := hI.wgEq
    rw [hI.finWg hfin, hfin, hheld, hfc] at hw
    simp only [bSend, bDoneTok, List.length_nil] at hw
    have hnr := hI.csNotRun (by rw [hfin]; rfl)
    cases hc : s2.cs
    · exact absurd hc hnr
    · rw [hc] at hw; simp [bDrain] at hw
    · rfl
  refine ⟨?_, ?_, hperm, hcs, ?_⟩
  · rw [hI.failEq, countFail, (hperm.filter _).length_eq]
  · rw [hI.succEq, countSucc, (hperm.filter _).length_eq]
  · exact hI.doneTr (by rw [hcs]; simp)

/-- Once main is past the "done" send and every worker is idle, the run can
only take internal steps: no further channel traffic of any kind occurs. -/
lemma post_no_msgs {jobs : List Req} {res : CloneOracle} :
    ∀ {s : St} {trr : List Label} {s2 : St}, Exec jobs res s trr s2 →
    postDone s.ms = true → (∀ w ∈ s.ws, w = WSt.idle) →
    ∀ l2 ∈ trr, l2 = Label.tau := by
  intro s trr s2 hex
  induction hex with
  | refl s => intro _ _ l2 hl2; simp at hl2
  | step hstep hrest ih =>
    intro hpd hidle l2 hl2
    cases hstep with
    | @mainAdd i ws cs wg su fa h hi => exact absurd hpd (by simp [postDone])
    | @mainExit ws cs wg su fa h => exact absurd hpd (by simp [postDone])
    | @recvJob i ws cs wg su fa h w hw => exact absurd hpd (by simp [postDone])
    | @sendStart ms ws wg su fa h w i hw =>
      exact absurd (hidle _ (mem_of_getElemQ hw)) (by simp)
    | @sendOutcome ms ws wg su fa h w i hw =>
      exact absurd (hidle _ (mem_of_getElemQ hw)) (by simp)
    | @tallyFail ms ws cs wg su fa h w i e hw hr =>
      exact absurd (hidle _ (mem_of_getElemQ hw)) (by simp)
    | @tallySucc ms ws cs wg su fa h w i hw hr =>
      exact absurd (hidle _ (mem_of_getElemQ hw)) (by simp)
    | @wgDone ms ws cs k su fa h w i hw =>
      exact absurd (hidle _ (mem_of_getElemQ hw)) (by simp)
    | @mainWait ws cs su fa h => exact absurd hpd (by simp [postDone])
    | @mainAddDone ws cs wg su fa h => exact absurd hpd (by simp [postDone])
    | @sendDone ws wg su fa h => exact absurd hpd (by simp [postDone])
    | @collectorDone ms ws k su fa h =>
      rcases List.mem_cons.mp hl2 with rfl | hl3
      · rfl
      · exact ih hpd hidle l2 hl3
    | @mainWaitFinal ws cs su fa h =>
      rcases List.mem_cons.mp hl2 with rfl | hl3
      · rfl
      · exact ih rfl hidle l2 hl3

/-- Splitting any execution at a delivery of the "done"-tagged message: all
jobs were dispatched and all outcome messages delivered strictly before it,
nothing is delivered after it, and its payload is the sentinel. -/
lemma exec_done_split {jobs : List Req} {res : CloneOracle} :
    ∀ {s : St} {trr : List Label} {s2 : St}, Exec jobs res s trr s2 →
    ∀ {pre : List Label}, RunInv jobs res pre s →
    ∀ {u : List Label} {d : String} {v : List Label},
    trr = u ++ Label.msg Tag.done d :: v →
    (∀ i, i < jobs.length → Label.dispatch i ∈ pre ++ u ∧
      ∃ str, Label.msg (Tag.outcome i) str ∈ pre ++ u) ∧
    (∀ t str2, Label.msg t str2 ∉ v) ∧ d = doneSentinel := by
  intro s trr s2 hex
  induction hex with
  | refl s =>
    intro pre hI u d v heq
    exact absurd heq (by cases u <;> simp)
  | step hstep hrest ih =>
    intro pre hI u d v heq
    cases u with
    | nil =>
      rw [List.nil_append] at heq
      injection heq with hl htr
      subst hl
      cases hstep with
      | @sendDone ws wg su fa h =>
        have hidle2 : ∀ w ∈ ws, w = WSt.idle := hI.p2Idle (by simp [phase2])
        have hheld : heldPre ws = [] := by
          apply List.filterMap_eq_nil.mpr
          intro a ha
          rw [hidle2 a ha]; rfl
        have hperm : h.Perm (List.range jobs.length) := by
          have h2 := hI.histPerm
          rw [hheld, List.append_nil] at h2
          simpa [handed] using h2
        refine ⟨?_, ?_, rfl⟩
        · intro i hi
          have hin : i ∈ h := hperm.mem_iff.mpr (List.mem_range.mpr hi)
          refine ⟨?_, ?_⟩
          · simpa using hI.dispTr i (by simpa [handed] using hi)
          · simpa using hI.outTr i (Or.inl hin)
        · intro t str2 hmem
          have htau := post_no_msgs hrest rfl hidle2 _ (htr ▸ hmem)
          simp at htau
    | cons l0 u2 =>
      rw [List.cons_append] at heq
      injection heq with hl htr
      subst hl
      have h2 := runInv_step hstep hI
      have h3 := ih h2 htr
      have hE : ∀ lx : Label, (pre ++ [lx]) ++ u2 = pre ++ lx :: u2 := by
        intro lx
        rw [List.append_assoc]; rfl
      refine ⟨?_, h3.2⟩
      intro i hi
      obtain ⟨ha, str, hb⟩ := h3.1 i hi
      rw [hE _] at ha hb
      exact ⟨ha, str, hb⟩

/-- The abort flag of the walk is set exactly when the first blocked entry
is an unreadable regular file with nonzero declared size. -/
lemma runWalk_unfinished : ∀ l : List (List String × FSEntry),
    (runWalk l).2 = (match firstBlocked l with
      | some (FSEntry.file _ c false) => decide (c ≠ [])
      | _ => false) := by
  intro l
  induction l with
  | nil => rfl
  | cons pe rest ih =>
    obtain ⟨rel, e⟩ := pe
    cases e with
    | file n c r =>
      cases r
      · simp [runWalk, walkFn, tarFileInfoHeader, firstBlocked, entryOK]
      · simp [runWalk, walkFn, tarFileInfoHeader, firstBlocked, entryOK, ih]
    | dir n es => simp [runWalk, walkFn, tarFileInfoHeader, firstBlocked, entryOK, ih]

lemma runWalk_trunc (fs : FSEntry) : (runWalk (walkRoot fs)).2 = truncErr fs := by
  rw [runWalk_unfinished]
  rfl

/-- On a fully readable walk the callback never errors and one tar entry is
written per walked filesystem entry. -/
lemma runWalk_all_ok : ∀ l : List (List String × FSEntry),
    (∀ pe ∈ l, entryOK pe.2 = true) → runWalk l = (l.map mkEntry, false) := by
  intro l
  induction l with
  | nil => intro _; rfl
  | cons pe rest ih =>
    intro hok
    obtain ⟨rel, e⟩ := pe
    have h1 := hok _ (List.mem_cons_self _ _)
    have h2 := fun pe hpe => hok pe (List.mem_cons_of_mem _ hpe)
    cases e with
    | file n c r =>
      cases r
      · simp [entryOK] at h1
      · simp [runWalk, walkFn, tarFileInfoHeader, ih h2, mkEntry]
    | dir n es => simp [runWalk, walkFn, tarFileInfoHeader, ih h2, mkEntry]

lemma init1 : initState jobs1 1 =
    ⟨MSt.dispatching 0, [WSt.idle], CSt.running, 0, 0, 0, []⟩ := by decide

/-- The canonical complete execution of the one-repository configuration
jobs1 under the always-failing oracle res1. -/
lemma exec1 : Exec jobs1 res1 (initState jobs1 1) tr1 sfin1 := by
  rw [init1]
  exact Exec.step (Step.mainAdd (by decide))
    (Exec.step (Step.recvJob 0 (by decide))
    (Exec.step Step.mainExit
    (Exec.step (Step.sendStart 0 0 (by decide))
    (Exec.step (Step.sendOutcome 0 0 (by decide))
    (Exec.step (Step.tallyFail 0 0 "boom" (by decide) rfl)
    (Exec.step (Step.wgDone 0 0 (by decide))
    (Exec.step Step.mainWait
    (Exec.step Step.mainAddDone
    (Exec.step Step.sendDone
    (Exec.step Step.collectorDone
    (Exec.step Step.mainWaitFinal
    (Exec.refl _))))))))))))

/-- C1: in every completed run of cloneRepos, if the number of jobs whose
clone failed is positive the function returns the aggregate error carrying
exactly that count (even when some jobs succeeded), and if no job failed it
returns nil. -/
theorem cloneRepos_aggregate_failure_count (jobs : List Req) (res : CloneOracle)
    (W : Int) (tr : List Label) (s2 : St)
    (hex : Exec jobs res (initState jobs W) tr s2) (hfin : s2.ms = MSt.finished) :
    (0 < countFail jobs res → cloneReposReturn s2 = some (countFail jobs res)) ∧
    (countFail jobs res = 0 → cloneReposReturn s2 = none) := by
  obtain ⟨hf, _, _, _, _⟩ := final_state hex hfin
  constructor
  · intro hpos
    unfold cloneReposReturn
    rw [hf]
    simp [Nat.pos_iff_ne_zero.mp hpos]
  · intro hz
    unfold cloneReposReturn
    rw [hf, hz]
    simp

theorem cloneRepos_aggregate_failure_count_witness :
    cloneReposReturn sfin1 = some 1 := by
  have h := (cloneRepos_aggregate_failure_count jobs1 res1 1 tr1 sfin1 exec1 rfl).1
  have hc : countFail jobs1 res1 = 1 := by decide
  rw [hc] at h
  exact h (by decide)

/-- C2: in every completed run of cloneRepos the success counter plus the
failure counter equals the number of configured repositories, and each
dispatched job was tallied exactly once (the tally history is a permutation
of the job indices), whatever pool size min(W, N) was chosen. -/
theorem cloneRepos_outcome_conservation (jobs : List Req) (res : CloneOracle)
    (W : Int) (tr : List Label) (s2 : St)
    (hex : Exec jobs res (initState jobs W) tr s2) (hfin : s2.ms = MSt.finished) :
    s2.succ + s2.fail = jobs.length ∧ s2.hist.Perm (List.range jobs.length) := by
  obtain ⟨hf, hs, hp, _, _⟩ := final_state hex hfin
  refine ⟨?_, hp⟩
  rw [hf, hs]
  unfold countFail countSucc
  have h2 := filter_some_none_length res (List.range jobs.length)
  rw [List.length_range] at h2
  omega

theorem cloneRepos_outcome_conservation_witness :
    sfin1.succ + sfin1.fail = jobs1.length ∧
    sfin1.hist.Perm (List.range jobs1.length) :=
  cloneRepos_outcome_conservation jobs1 res1 1 tr1 sfin1 exec1 rfl

/-- C3: in every run of cloneRepos, wherever the "done"-tagged delivery
occurs in the trace, every job was dispatched and every job's outcome
message was delivered strictly before it, no channel delivery happens after
it, and its payload is the sentinel; and the collector is stopped only in
runs whose trace contains that delivery. -/
theorem cloneRepos_done_after_outcomes (jobs : List Req) (res : CloneOracle)
    (W : Int) (tr : List Label) (s2 : St)
    (hex : Exec jobs res (initState jobs W) tr s2) :
    (∀ u d v, tr = u ++ Label.msg Tag.done d :: v →
      (∀ i, i < jobs.length → Label.dispatch i ∈ u ∧
        ∃ str, Label.msg (Tag.outcome i) str ∈ u) ∧
      (∀ t str2, Label.msg t str2 ∉ v) ∧ d = doneSentinel) ∧
    (s2.cs = CSt.stopped → Label.msg Tag.done doneSentinel ∈ tr) := by
  constructor
  · intro u d v heq
    have h := exec_done_split hex (runInv_init jobs res W) heq
    simpa using h
  · intro hcs
    have hI := runInv_exec hex (runInv_init jobs res W)
    rw [List.nil_append] at hI
    exact hI.doneTr (by rw [hcs]; simp)

theorem cloneRepos_done_after_outcomes_witness :
    Label.dispatch 0 ∈ u1 ∧ ∃ str, Label.msg (Tag.outcome 0) str ∈ u1 := by
  have h := (cloneRepos_done_after_outcomes jobs1 res1 1 tr1 sfin1 exec1).1
    u1 "done" v1 rfl
  exact h.1 0 (by decide)

/-- C4 (counterexample): with configured worker count -1 and one repository,
the spawn loop runs zero times, so the number of workers started is 0 and
not min(-1, 1) = -1; the claim fails for negative configured counts. -/
theorem workerPool_size_negative_cex :
    ¬ (((initState jobs1 (-1)).ws.length : Int)
        = min (-1 : Int) (jobs1.length : Int)) := by decide

/-- C4 (amended): for every nonnegative configured worker count W the number
of worker goroutines started equals min(W, N); for negative W the loop body
never runs, so zero workers are started. -/
theorem workerPool_size_clamped (W : Int) (jobs : List Req) (hW : 0 ≤ W) :
    ((initState jobs W).ws.length : Int) = min W (jobs.length : Int) := by
  unfold initState
  simp only [List.length_replicate, numWorkers]
  exact Int.toNat_of_nonneg (le_min hW (Int.natCast_nonneg _))

theorem workerPool_size_clamped_witness :
    ((initState jobs1 2).ws.length : Int) = min (2 : Int) (jobs1.length : Int) :=
  workerPool_size_clamped 2 jobs1 (by decide)

/-- C5 (counterexample): a staging tree containing an unreadable (empty)
file does not make compress fail: the walk aborts, filepath.Walk's error is
discarded, both closes succeed, and compress returns ok. -/
theorem compress_unreadable_silent_cex :
    allReadable cexFS = false ∧ (compress cexFS true).isOk = true := by
  constructor
  · decide
  · rfl

/-- C5 (amended): compress succeeds exactly when the output sink accepts all
writes and the walk was not aborted in the middle of a nonempty regular
file: a write failure to the sink is reported, an unreadable entry aborts
the rest of the walk with no partial-archive recovery, but the walk error
itself is discarded, so an unreadable empty file yields a silently truncated
successful archive. -/
theorem compress_failure_characterization (fs : FSEntry) (sinkOk : Bool) :
    (compress fs sinkOk).isOk = true ↔ (sinkOk = true ∧ truncErr fs = false) := by
  have hc : compress fs sinkOk =
      (if (runWalk (walkRoot fs)).2 then
        Except.error "archive tar: missed writing file content"
      else if sinkOk then Except.ok (runWalk (walkRoot fs)).1
      else Except.error "write to output sink failed") := rfl
  rw [hc, runWalk_trunc]
  cases h : truncErr fs <;> cases sinkOk <;> simp [Except.isOk, Except.toBool]

/-- C6: on a fully readable staging tree compress succeeds and emits, for
every filesystem entry under the source root in walk order, exactly one
archive entry whose name is the root label "codepack" joined with the
entry's slash-separated path relative to the source root. -/
theorem compress_entry_names (fs : FSEntry) (hok : allReadable fs = true) :
    ∃ es, compress fs true = Except.ok es ∧
      es.map TarEntry.name = (walkRoot fs).map fun pe => codepackName pe.1 := by
  have hall : ∀ pe ∈ walkRoot fs, entryOK pe.2 = true :=
    fun pe hpe => List.all_eq_true.mp hok pe hpe
  have hw := runWalk_all_ok (walkRoot fs) hall
  refine ⟨(walkRoot fs).map mkEntry, ?_, ?_⟩
  · simp [compress, hw]
  · rw [List.map_map]
    refine List.map_congr_left fun pe _ => ?_
    obtain ⟨rel, e⟩ := pe
    cases e <;> rfl

theorem compress_entry_names_witness :
    ∃ es, compress fs6 true = Except.ok es ∧
      es.map TarEntry.name = (walkRoot fs6).map fun pe => codepackName pe.1 :=
  compress_entry_names fs6 (by decide)

/-- C7: the exit status main.go actually produces on each terminal path:
the -skiptar success path and the -version path run Exit(nil), which calls
os.Exit(1), so these fully successful runs exit with status 1 rather than
0; only the archive-producing success path exits 0, and every failure path
exits 255 via os.Exit(-1). -/
theorem exit_status_on_success_paths :
    observedStatus (exitCode Scenario.skipTarOk) = 1 ∧
    observedStatus (exitCode Scenario.versionFlag) = 1 ∧
    observedStatus (exitCode Scenario.fullOk) = 0 ∧
    observedStatus (exitCode Scenario.cloneErr) = 255 ∧
    observedStatus (exitCode Scenario.configErr) = 255 ∧
    observedStatus (exitCode Scenario.archiveErr) = 255 ∧
    observedStatus (exitCode Scenario.skipTarRenameErr) = 255 ∧
    observedStatus (exitCode Scenario.logOpenErr) = 255 ∧
    observedStatus (exitCode Scenario.tempDirErr) = 255 ∧
    observedStatus (exitCode Scenario.cleanupErr) = 255 := by decide

/-- C8: with zero repositories configured no worker goroutine is started,
a complete run exists that dispatches nothing and returns nil, and the
archive of the empty staging root contains only the root label entry. -/
theorem cloneRepos_zero_repos (W : Int) (res : CloneOracle) :
    (initState [] W).ws.length = 0 ∧
    (∃ tr s2, Exec [] res (initState [] W) tr s2 ∧ s2.ms = MSt.finished ∧
      cloneReposReturn s2 = none ∧ ∀ i, Label.dispatch i ∉ tr) ∧
    compress (FSEntry.dir "" []) true = Except.ok [⟨"codepack", true, 0, []⟩] := by
  have h0 : numWorkers W (List.length ([] : List Req)) = 0 := by
    unfold numWorkers
    exact Int.toNat_eq_zero.mpr (min_le_right _ _)
  have hinit : initState ([] : List Req) W =
      ⟨MSt.dispatching 0, [], CSt.running, 0, 0, 0, []⟩ := by
    unfold initState
    rw [h0]
    rfl
  refine ⟨by rw [hinit]; rfl, ?_, rfl⟩
  refine ⟨[Label.tau, Label.tau, Label.tau, Label.msg Tag.done doneSentinel,
      Label.tau, Label.tau],
    ⟨MSt.finished, [], CSt.stopped, 0, 0, 0, []⟩, ?_, rfl, rfl, ?_⟩
  · rw [hinit]
    exact Exec.step Step.mainExit (Exec.step Step.mainWait (Exec.step Step.mainAddDone
      (Exec.step Step.sendDone (Exec.step Step.collectorDone
        (Exec.step Step.mainWaitFinal (Exec.refl _))))))
  · intro i
    simp

/-- C9: no string a worker can ever send on resultChan equals the shutdown
sentinel "done": the pre-clone and failure lines begin with "Cloning" and
the success line begins with "Cloned", so the collector cannot terminate on
a worker message. -/
theorem worker_messages_not_sentinel (r : Req) (e : String) :
    startMsg r ≠ doneSentinel ∧ failMsg r e ≠ doneSentinel ∧
    clonedMsg r ≠ doneSentinel ∧
    (startMsg r).data.take 7 = "Cloning".data ∧
    (failMsg r e).data.take 7 = "Cloning".data ∧
    (clonedMsg r).data.take 6 = "Cloned".data := by
  refine ⟨startMsg_ne_done r, failMsg_ne_done r e, clonedMsg_ne_done r, ?_, ?_, ?_⟩
  · obtain ⟨⟨u⟩, ⟨p⟩⟩ := r
    simp [startMsg, data_append]
  · obtain ⟨⟨u⟩, ⟨p⟩⟩ := r
    obtain ⟨d⟩ := e
    simp [failMsg, data_append]
  · obtain ⟨⟨u⟩, ⟨p⟩⟩ := r
    simp [clonedMsg, data_append]

/-- C10 (counterexample): on an entry the walk could not stat (nil file
info) the callback does not crash: tar.FileInfoHeader guards the nil
FileInfo and returns an error, which the callback's first check returns, so
the result is an ordinary aborting error with nothing emitted, not a
panic. -/
theorem walk_callback_nil_info_no_crash_cex :
    walkFn [] none (some "lstat failed") ≠ CBRes.panicked ∧
    walkFn [] none (some "lstat failed") = CBRes.fail [] false :=
  ⟨by decide, rfl⟩

/-- C10 (amended): the walk callback never inspects the error argument the
walk passes in (it is shadowed at once); on a nil file info
tar.FileInfoHeader returns the error "archive/tar: FileInfo is nil" rather
than dereferencing the nil value, and the callback propagates that error,
aborting the walk with a returned error (later discarded by compress) while
emitting nothing — a reported failure at the callback level, not a crash. -/
theorem walk_callback_ignores_error_no_crash :
    (∀ rel info e1 e2, walkFn rel info e1 = walkFn rel info e2) ∧
    tarFileInfoHeader none = Except.error "archive/tar: FileInfo is nil" ∧
    (∀ rel e, walkFn rel none e = CBRes.fail [] false ∧
      walkFn rel none e ≠ CBRes.panicked) := by
  refine ⟨?_, rfl, ?_⟩
  · intro rel info e1 e2
    cases info with
    | none => rfl
    | some fe =>
      cases fe with
      | file n c r => cases r <;> rfl
      | dir n es => rfl
  · intro rel e
    refine ⟨rfl, ?_⟩
    show (CBRes.fail [] false : CBRes) ≠ CBRes.panicked
    decide
